import Mathlib

/-!
Verification development for the weighted "catcher of the day" selection
algorithm (`catcher_weighted.py`).

Modelling conventions:
* Calendar dates are modelled as integers (day numbers).  ISO-8601 date
  strings compare lexicographically exactly like their day numbers, so the
  SQL string comparisons on `selected_date` / vacation bounds become integer
  comparisons.  The sentinel string "1900-01-01" used by the tie-breaker
  becomes the constant `date1900` (its day number relative to 1970-01-01).
* Python floats are modelled as rationals (ℚ); every weight the program
  computes is integer-valued, and the tie-breaking bonuses are exact
  decimal fractions, so no float rounding is observable at the values the
  program manipulates.  `round(x, 2)` is modelled as exact rounding of a
  rational to 2 decimal places.
* The SQLite tables become lists: `user`, `selection_history`, `vacation`.
  `INSERT` appends, `UPDATE ... WHERE id = ?` maps over the user list, and
  queries are filters/finds in table order.
* Randomness (`random.uniform`, `random.choice`, the cleanup coin flip) is
  passed in as explicit parameters (`rand_val`, `choice_idx`,
  `run_cleanup`).
* The fallible database operations of the record/read phase are modelled by
  a `FailPoint` parameter: `FailPoint.ok` is the error-free run, and the
  other constructors make the corresponding operation raise
  `sqlite3.Error`.  The `with get_db_connection() as conn:` block of
  `find_next_catcher_weighted` rolls the open transaction back when the
  body raises, so a failing run leaves the database state unchanged; this
  rollback is part of the model.
-/

/-! ## Constants (module-level configuration of `catcher_weighted.py`) -/

def BASE_WEIGHT : Int := 100

def YESTERDAY_PENALTY : Int := 50

def FREQUENCY_PENALTY_MULTIPLIER : Int := 5

def LOOKBACK_DAYS : Nat := 30

def CLEANUP_RETENTION_DAYS : Nat := 90

/-- Day number of the tie-breaker sentinel date "1900-01-01"
(relative to the 1970-01-01 epoch). -/
def date1900 : Int := -25567

/-! ## Data model -/

/-- A row of the `user` table: id, mail, denormalized last-chosen date
(`none` = never selected), and the weekday-availability string. -/
structure User where
  id : Int
  mail : String
  last_chosen : Option Int
  weekdays : String
deriving Repr, DecidableEq

/-- A row of the `selection_history` table. -/
structure SelectionRecord where
  user_id : Int
  selected_date : Int
deriving Repr, DecidableEq

/-- A row of the `vacation` table (inclusive date range). -/
structure Vacation where
  user_id : Int
  start_date : Int
  end_date : Int
deriving Repr, DecidableEq

/-- The persistent database state the selection run reads and writes. -/
structure DBState where
  users : List User
  selection_history : List SelectionRecord
  vacations : List Vacation
deriving Repr, DecidableEq

/-- An entry of the `weighted_users` list: the dict
`{"user": ..., "weight": ...}` (the extra debug fields
`recent_selections` / `is_yesterday` are not observable by any claim). -/
structure WeightedUser where
  user : User
  weight : ℚ
deriving Repr, DecidableEq

/-- Where (if anywhere) a `sqlite3.Error` is raised during the record/read
phase of `find_next_catcher_weighted`. -/
inductive FailPoint where
  | ok
  | onRead
  | onInsert
  | onUpdate
  | onCommit
deriving Repr, DecidableEq

/-! ## History store and eligibility helpers -/

/-- `cleanup_old_selection_history`: delete the history records with
`selected_date < today - retention_days` (the code first counts the
matching rows and then deletes them; the surviving table is the same). -/
def cleanup_old_selection_history (st : DBState) (today : Int)
    (retention_days : Nat) : DBState :=
  let cutoff_date := today - (retention_days : Int)
  { st with selection_history :=
      st.selection_history.filter (fun r => ! decide (r.selected_date < cutoff_date)) }

/-- `is_user_on_vacation` (error-free path): `COUNT(*)` of vacation rows for
the user whose inclusive range contains `date`, compared with 0. -/
def is_user_on_vacation (st : DBState) (user_id : Int) (date : Int) : Bool :=
  let count := st.vacations.countP (fun v =>
    decide (v.user_id = user_id) && decide (v.start_date ≤ date) && decide (date ≤ v.end_date))
  decide (0 < count)

/-- The `COUNT(*)` query inside `is_user_on_vacation`, as a value. -/
def vacation_count_query (vacations : List Vacation) (user_id : Int) (date : Int) : Nat :=
  vacations.countP (fun v =>
    decide (v.user_id = user_id) && decide (v.start_date ≤ date) && decide (date ≤ v.end_date))

/-- `is_user_on_vacation` with the fallibility of the database read made
explicit: the `try`/`except sqlite3.Error` of the source returns `False`
when the query raises. -/
def is_user_on_vacation_db (query_result : Except Unit Nat) : Bool :=
  match query_result with
  | Except.ok count => decide (0 < count)
  | Except.error _ => false

/-- The eligibility filter of `find_next_catcher_weighted` (weekday `LIKE`
match, then vacation check) with a fallible per-user vacation query. -/
def available_users_fallible (users : List User) (weekday : Char)
    (vacQuery : Int → Except Unit Nat) : List User :=
  (users.filter (fun u => u.weekdays.data.contains weekday)).filter
    (fun u => ! is_user_on_vacation_db (vacQuery u.id))

/-- `get_recent_selection_count` (error-free path): count of history rows
for the user with `selected_date >= today - days`. -/
def get_recent_selection_count (st : DBState) (user_id : Int) (today : Int)
    (days : Nat) : Nat :=
  let cutoff_date := today - (days : Int)
  st.selection_history.countP (fun r =>
    decide (r.user_id = user_id) && decide (cutoff_date ≤ r.selected_date))

/-- The count the spec sentence for `recentSelectionCount` describes: rows
for the person with record date in the half-open interval
`[date - lookbackDays, date)`.  Written from the spec words, to be compared
with `get_recent_selection_count` (which is translated from the source). -/
def recentSelectionCount_halfOpen (st : DBState) (user_id : Int) (date : Int)
    (lookbackDays : Nat) : Nat :=
  st.selection_history.countP (fun r =>
    decide (r.user_id = user_id) && decide (date - (lookbackDays : Int) ≤ r.selected_date)
      && decide (r.selected_date < date))

/-- The loop body of `get_last_working_day_catcher`: try the given
`days_back` offsets in order, skipping weekends and holidays, and return
the `user_id` of the first history record found on a working day. -/
def lastCatcherSearch (st : DBState) (today : Int)
    (isWeekendDay isHolidayDay : Int → Bool) : List Nat → Option Int
  | [] => none
  | days_back :: rest =>
    let check_date := today - (days_back : Int)
    if isWeekendDay check_date then
      lastCatcherSearch st today isWeekendDay isHolidayDay rest
    else if isHolidayDay check_date then
      lastCatcherSearch st today isWeekendDay isHolidayDay rest
    else
      match st.selection_history.find? (fun r => decide (r.selected_date = check_date)) with
      | some r => some r.user_id
      | none => lastCatcherSearch st today isWeekendDay isHolidayDay rest

/-- `get_last_working_day_catcher`: look back 1..7 calendar days. -/
def get_last_working_day_catcher (st : DBState) (today : Int)
    (isWeekendDay isHolidayDay : Int → Bool) : Option Int :=
  lastCatcherSearch st today isWeekendDay isHolidayDay [1, 2, 3, 4, 5, 6, 7]

/-- The "already chosen for today" query of `find_next_catcher_weighted`:
join `selection_history` rows dated `today` with the `user` table and take
the first mail produced. -/
def alreadySelectedMail (st : DBState) (today : Int) : Option String :=
  (st.selection_history.filterMap (fun sh =>
    if sh.selected_date = today then
      (st.users.find? (fun u => decide (u.id = sh.user_id))).map (fun u => u.mail)
    else none)).head?

/-- The `has_alternatives` expression of `find_next_catcher_weighted`
(lines 599-601): more than one available user, or exactly one whose id
differs from the last working day's catcher id (in Python,
`id != None` is `True`). -/
def has_alternatives (available_users : List User)
    (last_working_day_catcher_id : Option Int) : Bool :=
  decide (1 < available_users.length) ||
    (decide (available_users.length = 1) &&
      (match available_users with
       | u :: _ =>
         (match last_working_day_catcher_id with
          | some j => decide (u.id ≠ j)
          | none => true)
       | [] => false))

/-! ## Weight calculator -/

/-- `calculate_user_weight`: base 100, plus days since last selection (365
if never selected), minus the yesterday penalty when alternatives exist,
minus the frequency penalty, clamped to a minimum of 1. -/
def calculate_user_weight (user_id : Int) (last_chosen : Option Int) (today : Int)
    (last_working_day_catcher_id : Option Int) (recent_selections : Nat)
    (has_alt : Bool) : ℚ :=
  let base : ℚ := (BASE_WEIGHT : ℚ)
  let afterDays : ℚ :=
    match last_chosen with
    | some last_date => base + ((today - last_date : Int) : ℚ)
    | none => base + 365
  let afterYesterday : ℚ :=
    if has_alt && decide (last_working_day_catcher_id = some user_id) then
      afterDays - (YESTERDAY_PENALTY : ℚ)
    else afterDays
  let afterFrequency : ℚ :=
    afterYesterday - (recent_selections : ℚ) * (FREQUENCY_PENALTY_MULTIPLIER : ℚ)
  max afterFrequency 1

/-! ## Tie-breaker -/

/-- Python `round(w, 2)`: round to 2 decimal places (exact on the rational
model; every weight reaching this function in the program is an integer
plus an exact decimal bonus, so no binary-float artifact is observable). -/
def round2 (q : ℚ) : ℚ := ((round (100 * q) : ℤ) : ℚ) / 100

/-- The Python sort key of the tie-breaker:
`(wu["user"]["last_chosen"] or "1900-01-01", wu["user"]["mail"])`.
Python compares strings by code points, which is exactly the lexicographic
order on the character list of the mail address. -/
def pyKey (wu : WeightedUser) : Int × List Char :=
  (wu.user.last_chosen.getD date1900, wu.user.mail.data)

/-- Lexicographic comparison of tie-breaker sort keys (Python tuple
comparison used by `sorted`).  Python `sorted` is a stable sort by this
total preorder, so any stable sort implementation models it exactly; we
use `List.insertionSort`, which is also stable. -/
def keyLeP (a b : WeightedUser) : Prop :=
  (pyKey a).1 < (pyKey b).1 ∨ ((pyKey a).1 = (pyKey b).1 ∧ (pyKey a).2 ≤ (pyKey b).2)

instance : DecidableRel keyLeP := fun a b => by
  unfold keyLeP
  infer_instance

instance : IsTotal WeightedUser keyLeP := by
  constructor
  intro a b
  rcases lt_trichotomy (pyKey a).1 (pyKey b).1 with h | h | h
  · exact Or.inl (Or.inl h)
  · rcases le_total (pyKey a).2 (pyKey b).2 with h2 | h2
    · exact Or.inl (Or.inr ⟨h, h2⟩)
    · exact Or.inr (Or.inr ⟨h.symm, h2⟩)
  · exact Or.inr (Or.inl h)

instance : IsTrans WeightedUser keyLeP := by
  constructor
  intro a b c hab hbc
  rcases hab with h1 | ⟨h1, h1b⟩
  · rcases hbc with h2 | ⟨h2, h2b⟩
    · exact Or.inl (lt_trans h1 h2)
    · exact Or.inl (h2 ▸ h1)
  · rcases hbc with h2 | ⟨h2, h2b⟩
    · exact Or.inl (h1 ▸ h2)
    · exact Or.inr ⟨h1.trans h2, le_trans h1b h2b⟩

/-- The rounded weights in first-occurrence order: the key order of the
Python dict `weight_groups` (insertion order). -/
def groupKeys : List WeightedUser → List ℚ
  | [] => []
  | wu :: rest =>
    round2 wu.weight :: (groupKeys rest).filter (fun k => ! decide (k = round2 wu.weight))

/-- The members of one weight group, in input order (the order in which the
Python loop appends them to `weight_groups[weight_key]`). -/
def weightGroup (l : List WeightedUser) (k : ℚ) : List WeightedUser :=
  l.filter (fun wu => decide (round2 wu.weight = k))

/-- Processing of one weight group by `add_tie_breaking_logic`: a group of
size 1 passes through unchanged; a larger group is sorted by the Python key
and member `i` receives the bonus `0.1 / (i + 1)`. -/
def tieBreakGroup (users : List WeightedUser) : List WeightedUser :=
  if users.length = 1 then users
  else
    (List.insertionSort keyLeP users).enum.map (fun p =>
      { user := p.2.user, weight := p.2.weight + (1 / 10 : ℚ) / ((p.1 : ℚ) + 1) })

/-- `add_tie_breaking_logic`: group by rounded weight and process each
group, concatenating the groups in dict insertion order. -/
def add_tie_breaking_logic (weighted_users : List WeightedUser) : List WeightedUser :=
  (groupKeys weighted_users).flatMap (fun k => tieBreakGroup (weightGroup weighted_users k))

/-- The order of the final `weighted_users.sort(key=weight, reverse=True)`
of the pipeline (stable descending sort by weight). -/
def weightDescP (a b : WeightedUser) : Prop := b.weight ≤ a.weight

instance : DecidableRel weightDescP := fun a b => by
  unfold weightDescP
  infer_instance

instance : IsTotal WeightedUser weightDescP := by
  constructor
  intro a b
  exact le_total b.weight a.weight

instance : IsTrans WeightedUser weightDescP := by
  constructor
  intro a b c hab hbc
  exact le_trans hbc hab

/-! ## Weighted selector -/

/-- The cumulative scan of `weighted_random_selection_improved`: walk the
list accumulating weights and return the first user whose cumulative weight
reaches `rand_val`. -/
def scanSelect (rand_val : ℚ) : ℚ → List WeightedUser → Option User
  | _, [] => none
  | cumulative, wu :: rest =>
    if rand_val ≤ cumulative + wu.weight then some wu.user
    else scanSelect rand_val (cumulative + wu.weight) rest

/-- `weighted_random_selection_improved`.  `rand_val` models the draw of
`random.uniform(0, total_weight)` and `choice_idx` models `random.choice`
(an index into the list).  The `ValueError` on empty input becomes
`Except.error`. -/
def weighted_random_selection_improved (weighted_users : List WeightedUser)
    (rand_val : ℚ) (choice_idx : Nat) : Except String User :=
  match weighted_users with
  | [] => Except.error ("No users provided")
  | wu :: rest =>
    if rest.length = 0 then Except.ok wu.user
    else
      let total_weight := ((wu :: rest).map (fun x => x.weight)).sum
      if total_weight ≤ 0 then
        Except.ok ((wu :: rest).get
          ⟨choice_idx % (rest.length + 1), Nat.mod_lt _ (Nat.succ_pos _)⟩).user
      else
        match scanSelect rand_val 0 (wu :: rest) with
        | some u => Except.ok u
        | none => Except.ok ((wu :: rest).getLast (List.cons_ne_nil _ _)).user

/-- The `total_weight` of `weighted_random_selection_improved`. -/
def totalWeight (l : List WeightedUser) : ℚ := (l.map (fun wu => wu.weight)).sum

/-- Cumulative weight of the first `n` candidates (the value of the
running `cumulative` variable of the selector after `n` iterations). -/
def cumulativeWeight (l : List WeightedUser) (n : Nat) : ℚ :=
  ((l.take n).map (fun wu => wu.weight)).sum

/-! ## The full selection run -/

/-- The eligibility filter of `find_next_catcher_weighted` (error-free
path): users whose weekday string contains the weekday character (the SQL
`weekdays LIKE ?` with a single-character pattern), minus those on
vacation today. -/
def available_users (st : DBState) (today : Int) (weekday : Char) : List User :=
  let all_users := st.users.filter (fun u => u.weekdays.data.contains weekday)
  all_users.filter (fun u => ! is_user_on_vacation st u.id today)

/-- The `weighted_users` list built by `find_next_catcher_weighted`:
one entry per available user with the weight from `calculate_user_weight`
(the debug-only dict fields are dropped). -/
def weighted_users_of (st : DBState) (today : Int) (weekday : Char)
    (isWeekendDay isHolidayDay : Int → Bool) : List WeightedUser :=
  let last_working_day_catcher_id :=
    get_last_working_day_catcher st today isWeekendDay isHolidayDay
  let has_alt := has_alternatives (available_users st today weekday)
    last_working_day_catcher_id
  (available_users st today weekday).map (fun u =>
    { user := u,
      weight := calculate_user_weight u.id u.last_chosen today
        last_working_day_catcher_id
        (get_recent_selection_count st u.id today LOOKBACK_DAYS) has_alt })

/-- The write phase of the run: `INSERT INTO selection_history (user_id,
selected_date)` followed by `UPDATE user SET last_chosen WHERE id = ?`.
The enclosing transaction commits or rolls back the two statements
together, so the model applies them as one state change on the success
path only. -/
def recordSelection (st : DBState) (uid : Int) (today : Int) : DBState :=
  { st with
    selection_history :=
      st.selection_history ++ [{ user_id := uid, selected_date := today }],
    users := st.users.map (fun x =>
      if x.id = uid then { x with last_chosen := some today } else x) }

/-- `find_next_catcher_weighted`.  Parameters beyond the database state:
`today` and the weekday character, the weekend/holiday predicates used by
`get_last_working_day_catcher`, the randomness (`rand_val`, `choice_idx`,
and the 10% cleanup coin as `run_cleanup`), the `dry_run` flag, and the
failure injection point `fp`.  Returns the `(mail, is_new_selection)` pair
together with the database state after the run; a modelled `sqlite3.Error`
during the record/read phase makes the `with`-block roll the transaction
back, leaving the input state. -/
def find_next_catcher_weighted (st : DBState) (today : Int) (weekday : Char)
    (isWeekendDay isHolidayDay : Int → Bool) (rand_val : ℚ) (choice_idx : Nat)
    (run_cleanup : Bool) (dry_run : Bool) (fp : FailPoint) :
    (Option String × Bool) × DBState :=
  if fp = FailPoint.onRead then ((none, false), st)
  else
    match alreadySelectedMail st today with
    | some mail => ((some mail, false), st)
    | none =>
      if (available_users st today weekday).length = 0 then ((none, false), st)
      else
        match weighted_random_selection_improved
            (List.insertionSort weightDescP
              (add_tie_breaking_logic
                (weighted_users_of st today weekday isWeekendDay isHolidayDay)))
            rand_val choice_idx with
        | Except.error _ => ((none, false), st)
        | Except.ok selected_user =>
          if dry_run then ((some selected_user.mail, true), st)
          else if fp = FailPoint.onInsert then ((none, false), st)
          else if fp = FailPoint.onUpdate then ((none, false), st)
          else if fp = FailPoint.onCommit then ((none, false), st)
          else if run_cleanup then
            ((some selected_user.mail, true),
              cleanup_old_selection_history (recordSelection st selected_user.id today)
                today CLEANUP_RETENTION_DAYS)
          else ((some selected_user.mail, true), recordSelection st selected_user.id today)

/-! ## Concrete fixtures for counterexamples and witnesses -/

/-- A user who was never selected. -/
def userA : User := { id := 1, mail := "a@x", last_chosen := none, weekdays := "12345" }

/-- A second never-selected user. -/
def userB : User := { id := 2, mail := "b@x", last_chosen := none, weekdays := "12345" }

/-- A user last selected on day 10. -/
def userC : User := { id := 3, mail := "c@x", last_chosen := some 10, weekdays := "12345" }

/-- Candidate list with two members of rounded-weight group 100.2 and one
member of the strictly higher group 100.21. -/
def tieListCex : List WeightedUser :=
  [ { user := userA, weight := 1002 / 10 },
    { user := userB, weight := 1002 / 10 },
    { user := userC, weight := 10021 / 100 } ]

/-- Candidate list with integer weights and one tied group. -/
def tieListInt : List WeightedUser :=
  [ { user := userA, weight := 100 },
    { user := userB, weight := 100 },
    { user := userC, weight := 101 } ]

/-- Two candidates with positive weights 3 and 5. -/
def pairList : List WeightedUser :=
  [ { user := userA, weight := 3 }, { user := userB, weight := 5 } ]

/-- Two candidates whose total weight is negative. -/
def negList : List WeightedUser :=
  [ { user := userC, weight := -5 }, { user := userA, weight := 2 } ]

/-- A history containing exactly one record, dated day 100, for user 1. -/
def histTodayState : DBState :=
  { users := [], selection_history := [{ user_id := 1, selected_date := 100 }],
    vacations := [] }

/-- A single-user database with empty history. -/
def runState : DBState :=
  { users := [userA], selection_history := [], vacations := [] }

/-- `runState` after the day-0 run: the day-0 record is inserted and the
user's `last_chosen` is updated. -/
def runStateAfter : DBState :=
  { users := [{ id := 1, mail := "a@x", last_chosen := some 0, weekdays := "12345" }],
    selection_history := [{ user_id := 1, selected_date := 0 }], vacations := [] }

/-- A single-user database where that user was selected on day -1 (the
last working day before day 0). -/
def yestState : DBState :=
  { users := [userA], selection_history := [{ user_id := 1, selected_date := -1 }],
    vacations := [] }

/-! ## Helper lemmas -/

theorem countP_cutoff_split (l : List SelectionRecord) (uid date : Int) (days : Nat) :
    l.countP (fun r =>
        decide (r.user_id = uid) && decide (date - (days : Int) ≤ r.selected_date)) =
      l.countP (fun r =>
        decide (r.user_id = uid) && decide (date - (days : Int) ≤ r.selected_date)
          && decide (r.selected_date < date)) +
      l.countP (fun r => decide (r.user_id = uid) && decide (date ≤ r.selected_date)) := by
  induction l with
  | nil => rfl
  | cons r t ih =>
    simp only [List.countP_cons]
    by_cases h1 : r.user_id = uid <;>
      by_cases h2 : date - (days : Int) ≤ r.selected_date <;>
        by_cases h3 : r.selected_date < date
    · have e1 : (decide (r.user_id = uid) && decide (date - (days : Int) ≤ r.selected_date)) = true := by
        simp
        omega
      have e2 : (decide (r.user_id = uid) && decide (date - (days : Int) ≤ r.selected_date)
          && decide (r.selected_date < date)) = true := by
        simp
        omega
      have e3 : (decide (r.user_id = uid) && decide (date ≤ r.selected_date)) = false := by
        simp
        omega
      rw [e2, e3, e1, ih]
      norm_num
      omega
    · have e1 : (decide (r.user_id = uid) && decide (date - (days : Int) ≤ r.selected_date)) = true := by
        simp
        omega
      have e2 : (decide (r.user_id = uid) && decide (date - (days : Int) ≤ r.selected_date)
          && decide (r.selected_date < date)) = false := by
        simp
        omega
      have e3 : (decide (r.user_id = uid) && decide (date ≤ r.selected_date)) = true := by
        simp
        omega
      rw [e2, e3, e1, ih]
      norm_num
      omega
    · have e1 : (decide (r.user_id = uid) && decide (date - (days : Int) ≤ r.selected_date)) = false := by
        simp
        omega
      have e2 : (decide (r.user_id = uid) && decide (date - (days : Int) ≤ r.selected_date)
          && decide (r.selected_date < date)) = false := by
        simp
        omega
      have e3 : (decide (r.user_id = uid) && decide (date ≤ r.selected_date)) = false := by
        simp
        omega
      rw [e2, e3, e1, ih]
      norm_num
    · exfalso
      omega
    · have e1 : (decide (r.user_id = uid) && decide (date - (days : Int) ≤ r.selected_date)) = false := by
        simp
        omega
      have e2 : (decide (r.user_id = uid) && decide (date - (days : Int) ≤ r.selected_date)
          && decide (r.selected_date < date)) = false := by
        simp
        omega
      have e3 : (decide (r.user_id = uid) && decide (date ≤ r.selected_date)) = false := by
        simp
        omega
      rw [e2, e3, e1, ih]
      norm_num
    · have e1 : (decide (r.user_id = uid) && decide (date - (days : Int) ≤ r.selected_date)) = false := by
        simp
        omega
      have e2 : (decide (r.user_id = uid) && decide (date - (days : Int) ≤ r.selected_date)
          && decide (r.selected_date < date)) = false := by
        simp
        omega
      have e3 : (decide (r.user_id = uid) && decide (date ≤ r.selected_date)) = false := by
        simp
        omega
      rw [e2, e3, e1, ih]
      norm_num
    · have e1 : (decide (r.user_id = uid) && decide (date - (days : Int) ≤ r.selected_date)) = false := by
        simp
        omega
      have e2 : (decide (r.user_id = uid) && decide (date - (days : Int) ≤ r.selected_date)
          && decide (r.selected_date < date)) = false := by
        simp
        omega
      have e3 : (decide (r.user_id = uid) && decide (date ≤ r.selected_date)) = false := by
        simp
        omega
      rw [e2, e3, e1, ih]
      norm_num
    · exfalso
      omega

/-! ## C1 -/

/-- C1: for every person, `calculate_user_weight` returns
`max 1 (100 + d - p - 5*r)` where `d` is the number of days since the last
selection (365 when never selected), `p` is 50 exactly when alternatives
exist and the person is the last working day's catcher (0 otherwise), and
`r` is the recent-selection count; in particular the returned weight is at
least 1, never zero or negative. -/
theorem user_weight_formula_c1 (user_id : Int) (last_chosen : Option Int)
    (today : Int) (lastc : Option Int) (recent : Nat) (has_alt : Bool) :
    calculate_user_weight user_id last_chosen today lastc recent has_alt =
      max 1 ((100 : ℚ)
        + (match last_chosen with
           | some d => ((today - d : Int) : ℚ)
           | none => (365 : ℚ))
        - (if has_alt = true ∧ lastc = some user_id then (50 : ℚ) else 0)
        - 5 * (recent : ℚ))
    ∧ 1 ≤ calculate_user_weight user_id last_chosen today lastc recent has_alt := by
  constructor
  · simp only [calculate_user_weight, BASE_WEIGHT, YESTERDAY_PENALTY,
      FREQUENCY_PENALTY_MULTIPLIER]
    have hcond : (has_alt && decide (lastc = some user_id)) = true ↔
        (has_alt = true ∧ lastc = some user_id) := by simp
    by_cases hp : has_alt = true ∧ lastc = some user_id
    · rw [if_pos (hcond.mpr hp), if_pos hp]
      rcases last_chosen with _ | d <;>
        · rw [max_comm]
          congr 1
          push_cast
          ring
    · rw [if_neg (fun h => hp (hcond.mp h)), if_neg hp]
      rcases last_chosen with _ | d <;>
        · rw [max_comm]
          congr 1
          push_cast
          ring
  · simp only [calculate_user_weight]
    exact le_max_right _ _

/-! ## C2 -/

/-- C2 counterexample: with a single history record dated exactly `date`
(day 100), `get_recent_selection_count` returns 1, while the
half-open-interval count claimed by the spec is 0 — so a record dated
exactly `date` IS counted, contradicting the claim. -/
theorem recent_count_counts_today_c2_cex :
    get_recent_selection_count histTodayState 1 100 30 = 1 ∧
      recentSelectionCount_halfOpen histTodayState 1 100 30 = 0 ∧
      get_recent_selection_count histTodayState 1 100 30 ≠
        recentSelectionCount_halfOpen histTodayState 1 100 30 := by
  refine ⟨?_, ?_, ?_⟩ <;> decide

/-- C2 (amended): `get_recent_selection_count` counts the records for the
person with record date ≥ `date - lookbackDays` with NO upper bound: it
equals the half-open-interval count claimed by the spec plus the number of
records dated `date` or later. -/
theorem recent_count_no_upper_bound_c2 (st : DBState) (user_id date : Int)
    (lookbackDays : Nat) :
    get_recent_selection_count st user_id date lookbackDays =
      recentSelectionCount_halfOpen st user_id date lookbackDays +
        st.selection_history.countP (fun r =>
          decide (r.user_id = user_id) && decide (date ≤ r.selected_date)) := by
  simp only [get_recent_selection_count, recentSelectionCount_halfOpen]
  exact countP_cutoff_split st.selection_history user_id date lookbackDays

/-! ## C8 -/

/-- C8: for `retentionDays ≥ lookbackDays`, pruning deletes exactly the
records dated strictly before `today - retentionDays`, and therefore keeps
every record dated ≥ `today - lookbackDays`. -/
theorem prune_retention_c8 (st : DBState) (today : Int)
    (retentionDays lookbackDays : Nat) (hrl : lookbackDays ≤ retentionDays) :
    (∀ r : SelectionRecord,
        r ∈ (cleanup_old_selection_history st today retentionDays).selection_history ↔
          r ∈ st.selection_history ∧ ¬ r.selected_date < today - (retentionDays : Int))
    ∧ ∀ r ∈ st.selection_history, today - (lookbackDays : Int) ≤ r.selected_date →
        r ∈ (cleanup_old_selection_history st today retentionDays).selection_history := by
  constructor
  · intro r
    simp [cleanup_old_selection_history, List.mem_filter]
  · intro r hr hd
    simp only [cleanup_old_selection_history, List.mem_filter]
    refine ⟨hr, ?_⟩
    simp only [Bool.not_eq_true', decide_eq_false_iff_not, not_lt]
    have hcast : (lookbackDays : Int) ≤ (retentionDays : Int) := by exact_mod_cast hrl
    omega

/-- Witness for C8 at a concrete input: `today = 200`,
`retentionDays = 90`, `lookbackDays = 30`, one record dated 100. -/
theorem prune_retention_c8_witness :
    (30 : Nat) ≤ 90 ∧
    ((∀ r : SelectionRecord,
        r ∈ (cleanup_old_selection_history histTodayState 200 90).selection_history ↔
          r ∈ histTodayState.selection_history ∧ ¬ r.selected_date < 200 - ((90 : Nat) : Int))
      ∧ ∀ r ∈ histTodayState.selection_history, 200 - ((30 : Nat) : Int) ≤ r.selected_date →
        r ∈ (cleanup_old_selection_history histTodayState 200 90).selection_history) :=
  ⟨by decide, prune_retention_c8 histTodayState 200 90 30 (by decide)⟩

/-! ## C10 -/

/-- C10: when the vacation query for a user raises, the vacation check
returns `False`, and a user scheduled for the weekday therefore remains in
the eligible list instead of the run aborting. -/
theorem vacation_fail_open_c10 (users : List User) (weekday : Char)
    (vacQuery : Int → Except Unit Nat) (u : User)
    (herr : vacQuery u.id = Except.error ())
    (hmem : u ∈ users) (hwd : u.weekdays.data.contains weekday = true) :
    is_user_on_vacation_db (vacQuery u.id) = false ∧
      u ∈ available_users_fallible users weekday vacQuery := by
  have h1 : is_user_on_vacation_db (vacQuery u.id) = false := by
    rw [herr]
    rfl
  refine ⟨h1, ?_⟩
  unfold available_users_fallible
  refine List.mem_filter.mpr ⟨List.mem_filter.mpr ⟨hmem, hwd⟩, ?_⟩
  simp [h1]

/-- Witness for C10: a one-user table whose vacation query always raises. -/
theorem vacation_fail_open_c10_witness :
    ((fun _ : Int => (Except.error () : Except Unit Nat)) userA.id = Except.error () ∧
      userA ∈ [userA] ∧ userA.weekdays.data.contains '1' = true) ∧
    (is_user_on_vacation_db ((fun _ : Int => (Except.error () : Except Unit Nat)) userA.id) = false ∧
      userA ∈ available_users_fallible [userA] '1' (fun _ => Except.error ())) :=
  ⟨⟨rfl, by decide, by decide⟩,
    vacation_fail_open_c10 [userA] '1' (fun _ => Except.error ()) userA rfl
      (by decide) (by decide)⟩

/-! ## Weighted selector lemmas -/

theorem scanSelect_mem (rand_val : ℚ) :
    ∀ (l : List WeightedUser) (c : ℚ) (u : User),
      scanSelect rand_val c l = some u → ∃ wu ∈ l, wu.user = u := by
  intro l
  induction l with
  | nil =>
    intro c u h
    simp [scanSelect] at h
  | cons wu rest ih =>
    intro c u h
    simp only [scanSelect] at h
    by_cases hc : rand_val ≤ c + wu.weight
    · rw [if_pos hc] at h
      refine ⟨wu, List.mem_cons_self _ _, ?_⟩
      injection h
    · rw [if_neg hc] at h
      obtain ⟨wu2, hmem, heq⟩ := ih _ _ h
      exact ⟨wu2, List.mem_cons_of_mem _ hmem, heq⟩

theorem scanSelect_spec (rand_val : ℚ) :
    ∀ (l : List WeightedUser) (c : ℚ), l ≠ [] → rand_val ≤ c + totalWeight l →
      ∃ (i : ℕ) (hi : i < l.length),
        scanSelect rand_val c l = some (l.get ⟨i, hi⟩).user ∧
        rand_val ≤ c + cumulativeWeight l (i + 1) ∧
        ∀ j < i, c + cumulativeWeight l (j + 1) < rand_val := by
  intro l
  induction l with
  | nil =>
    intro c h
    exact absurd rfl h
  | cons wu rest ih =>
    intro c _ htot
    by_cases hc : rand_val ≤ c + wu.weight
    · refine ⟨0, by simp, ?_, ?_, ?_⟩
      · simp [scanSelect, hc]
      · have h1 : cumulativeWeight (wu :: rest) 1 = wu.weight := by
          simp [cumulativeWeight]
        rw [h1]
        exact hc
      · intro j hj
        exact absurd hj (Nat.not_lt_zero j)
    · have hrest : rest ≠ [] := by
        intro he
        subst he
        simp only [totalWeight, List.map_cons, List.map_nil, List.sum_cons, List.sum_nil,
          add_zero] at htot
        exact hc htot
      have htot2 : rand_val ≤ (c + wu.weight) + totalWeight rest := by
        simp only [totalWeight, List.map_cons, List.sum_cons] at htot
        calc rand_val ≤ c + (wu.weight + (rest.map (fun x => x.weight)).sum) := htot
          _ = (c + wu.weight) + totalWeight rest := by
              simp only [totalWeight]
              ring
      obtain ⟨i, hi, hscan, hub, hlb⟩ := ih (c + wu.weight) hrest htot2
      refine ⟨i + 1, Nat.succ_lt_succ hi, ?_, ?_, ?_⟩
      · simp only [scanSelect, if_neg hc, List.get_cons_succ]
        exact hscan
      · have h2 : cumulativeWeight (wu :: rest) (i + 1 + 1) =
            wu.weight + cumulativeWeight rest (i + 1) := by
          simp [cumulativeWeight, List.take_succ_cons]
        rw [h2]
        linarith [hub]
      · intro j hj
        cases j with
        | zero =>
          have h1 : cumulativeWeight (wu :: rest) 1 = wu.weight := by
            simp [cumulativeWeight]
          rw [h1]
          linarith [lt_of_not_le hc]
        | succ j2 =>
          have h3 : cumulativeWeight (wu :: rest) (j2 + 1 + 1) =
              wu.weight + cumulativeWeight rest (j2 + 1) := by
            simp [cumulativeWeight, List.take_succ_cons]
          rw [h3]
          have h4 := hlb j2 (by omega)
          linarith [h4]

/-! ## C9 -/

/-- C9: on every non-empty candidate list the selector returns the user of
some element of the input list, for every drawn value and fallback choice;
in particular the final fallback (scan exhausted without reaching the draw)
returns the last candidate, so no person outside the candidate set can be
returned. -/
theorem selector_total_c9 (l : List WeightedUser) (rand_val : ℚ) (choice_idx : Nat)
    (hne : l ≠ []) :
    ∃ wu ∈ l, weighted_random_selection_improved l rand_val choice_idx =
      Except.ok wu.user := by
  match l, hne with
  | wu :: rest, _ =>
    simp only [weighted_random_selection_improved]
    by_cases hlen : rest.length = 0
    · rw [if_pos hlen]
      exact ⟨wu, List.mem_cons_self _ _, rfl⟩
    · rw [if_neg hlen]
      by_cases htot : ((wu :: rest).map (fun x => x.weight)).sum ≤ 0
      · rw [if_pos htot]
        exact ⟨(wu :: rest).get ⟨choice_idx % (rest.length + 1), Nat.mod_lt _ (Nat.succ_pos _)⟩,
          List.get_mem _ _ _, rfl⟩
      · rw [if_neg htot]
        cases hscan : scanSelect rand_val 0 (wu :: rest) with
        | some u =>
          obtain ⟨wu2, hmem, hequ⟩ := scanSelect_mem rand_val (wu :: rest) 0 u hscan
          exact ⟨wu2, hmem, by rw [hequ]⟩
        | none =>
          exact ⟨(wu :: rest).getLast (List.cons_ne_nil _ _), List.getLast_mem _, rfl⟩

/-- Witness for C9 with a drawn value larger than the total weight (the
fallback branch). -/
theorem selector_total_c9_witness :
    pairList ≠ [] ∧
      ∃ wu ∈ pairList, weighted_random_selection_improved pairList 9 0 =
        Except.ok wu.user :=
  ⟨by simp [pairList], selector_total_c9 pairList 9 0 (by simp [pairList])⟩

/-! ## C4 -/

/-- C4: the weighted selector errors on the empty list; returns the single
candidate without consulting the randomness parameters; for a positive
total weight and a draw in `[0, totalWeight)` it returns the first
candidate in list order whose cumulative weight meets or exceeds the draw;
and for total weight ≤ 0 it falls back to the uniform random choice
(modelled by `choice_idx`) among the candidates. -/
theorem weighted_selector_contract_c4 :
    (∀ (rand_val : ℚ) (choice_idx : Nat),
        weighted_random_selection_improved [] rand_val choice_idx =
          Except.error ("No users provided"))
    ∧ (∀ (wu : WeightedUser) (rand_val : ℚ) (choice_idx : Nat),
        weighted_random_selection_improved [wu] rand_val choice_idx = Except.ok wu.user)
    ∧ (∀ (l : List WeightedUser) (rand_val : ℚ) (choice_idx : Nat),
        l ≠ [] → 0 < totalWeight l → 0 ≤ rand_val → rand_val < totalWeight l →
        ∃ (i : ℕ) (hi : i < l.length),
          weighted_random_selection_improved l rand_val choice_idx =
            Except.ok (l.get ⟨i, hi⟩).user ∧
          rand_val ≤ cumulativeWeight l (i + 1) ∧
          ∀ j < i, cumulativeWeight l (j + 1) < rand_val)
    ∧ (∀ (l : List WeightedUser) (rand_val : ℚ) (choice_idx : Nat),
        1 < l.length → totalWeight l ≤ 0 →
        ∃ u : WeightedUser, l.get? (choice_idx % l.length) = some u ∧
          weighted_random_selection_improved l rand_val choice_idx =
            Except.ok u.user) := by
  refine ⟨fun _ _ => rfl, fun wu _ _ => rfl, ?_, ?_⟩
  · intro l rand_val choice_idx hne htpos hr0 hrt
    match l, hne with
    | wu :: rest, _ =>
      by_cases hlen : rest.length = 0
      · match rest, hlen with
        | [], _ =>
          refine ⟨0, by simp, rfl, ?_, ?_⟩
          · have h1 : cumulativeWeight [wu] 1 = totalWeight [wu] := by
              simp [cumulativeWeight, totalWeight]
            rw [h1]
            exact le_of_lt hrt
          · intro j hj
            exact absurd hj (Nat.not_lt_zero j)
      · have htot : ¬ ((wu :: rest).map (fun x => x.weight)).sum ≤ 0 := by
          simp only [totalWeight] at htpos
          exact not_le.mpr htpos
        obtain ⟨i, hi, hscan, hub, hlb⟩ :=
          scanSelect_spec rand_val (wu :: rest) 0 (List.cons_ne_nil _ _)
            (by rw [zero_add]; exact le_of_lt hrt)
        refine ⟨i, hi, ?_, ?_, ?_⟩
        · simp only [weighted_random_selection_improved, if_neg hlen, if_neg htot, hscan]
        · linarith [hub]
        · intro j hj
          have := hlb j hj
          linarith [this]
  · intro l rand_val choice_idx hlen htot
    match l, hlen with
    | wu :: rest, _ =>
      have hlen0 : ¬ rest.length = 0 := by
        have hlc : (wu :: rest).length = rest.length + 1 := List.length_cons _ _
        omega
      have htot2 : ((wu :: rest).map (fun x => x.weight)).sum ≤ 0 := by
        simpa only [totalWeight] using htot
      refine ⟨(wu :: rest).get ⟨choice_idx % (rest.length + 1), Nat.mod_lt _ (Nat.succ_pos _)⟩,
        ?_, ?_⟩
      · exact List.get?_eq_get _
      · simp only [weighted_random_selection_improved, if_neg hlen0, if_pos htot2]

/-- Witness for C4: the cumulative-scan contract at the list with weights
3 and 5 and draw 3.5, and the fallback contract at a list with negative
total weight. -/
theorem weighted_selector_contract_c4_witness :
    (pairList ≠ [] ∧ 0 < totalWeight pairList ∧ (0 : ℚ) ≤ 7 / 2 ∧
        (7 / 2 : ℚ) < totalWeight pairList ∧
      ∃ (i : ℕ) (hi : i < pairList.length),
        weighted_random_selection_improved pairList (7 / 2) 0 =
          Except.ok (pairList.get ⟨i, hi⟩).user ∧
        (7 / 2 : ℚ) ≤ cumulativeWeight pairList (i + 1) ∧
        ∀ j < i, cumulativeWeight pairList (j + 1) < (7 / 2 : ℚ))
    ∧ (1 < negList.length ∧ totalWeight negList ≤ 0 ∧
      ∃ u : WeightedUser, negList.get? (1 % negList.length) = some u ∧
        weighted_random_selection_improved negList 0 1 = Except.ok u.user) :=
  ⟨⟨by simp [pairList], by norm_num [totalWeight, pairList], by norm_num,
      by norm_num [totalWeight, pairList],
      weighted_selector_contract_c4.2.2.1 pairList (7 / 2) 0 (by simp [pairList])
        (by norm_num [totalWeight, pairList]) (by norm_num)
        (by norm_num [totalWeight, pairList])⟩,
    ⟨by simp [negList], by norm_num [totalWeight, negList],
      weighted_selector_contract_c4.2.2.2 negList 0 1 (by simp [negList])
        (by norm_num [totalWeight, negList])⟩⟩

/-! ## Tie-breaker lemmas -/

theorem round2_intCast (z : ℤ) : round2 ((z : ℚ)) = (z : ℚ) := by
  unfold round2
  have h : (100 : ℚ) * (z : ℚ) = ((100 * z : ℤ) : ℚ) := by
    push_cast
    ring
  rw [h, round_intCast]
  push_cast
  ring

theorem mem_groupKeys_of_mem {l : List WeightedUser} {wu : WeightedUser} (h : wu ∈ l) :
    round2 wu.weight ∈ groupKeys l := by
  induction l with
  | nil => cases h
  | cons x rest ih =>
    rcases List.mem_cons.mp h with h1 | h2
    · subst h1
      simp [groupKeys]
    · by_cases he : round2 wu.weight = round2 x.weight
      · simp [groupKeys, he]
      · simp only [groupKeys, List.mem_cons]
        right
        rw [List.mem_filter]
        exact ⟨ih h2, by simp [he]⟩

theorem mem_weightGroup {l : List WeightedUser} {k : ℚ} {wu : WeightedUser} :
    wu ∈ weightGroup l k ↔ wu ∈ l ∧ round2 wu.weight = k := by
  simp [weightGroup, List.mem_filter]

theorem snd_mem_of_mem_enumFrom {α : Type _} :
    ∀ (l : List α) (n : Nat) (p : Nat × α), p ∈ l.enumFrom n → p.2 ∈ l := by
  intro l
  induction l with
  | nil =>
    intro n p h
    cases h
  | cons x rest ih =>
    intro n p h
    simp only [List.enumFrom] at h
    rcases List.mem_cons.mp h with h1 | h2
    · subst h1
      exact List.mem_cons_self _ _
    · exact List.mem_cons_of_mem _ (ih (n + 1) p h2)

theorem snd_mem_of_mem_enum {α : Type _} {l : List α} {p : Nat × α} (h : p ∈ l.enum) :
    p.2 ∈ l :=
  snd_mem_of_mem_enumFrom l 0 p (by simpa [List.enum] using h)

theorem tieBreakGroup_trace {g : List WeightedUser} {o : WeightedUser}
    (h : o ∈ tieBreakGroup g) :
    ∃ wu ∈ g, o.user = wu.user ∧ wu.weight ≤ o.weight ∧ o.weight ≤ wu.weight + 1 / 10 := by
  unfold tieBreakGroup at h
  by_cases hlen : g.length = 1
  · rw [if_pos hlen] at h
    exact ⟨o, h, rfl, le_refl _, by linarith⟩
  · rw [if_neg hlen] at h
    obtain ⟨p, hp, hfo⟩ := List.mem_map.mp h
    have hmem : p.2 ∈ List.insertionSort keyLeP g := snd_mem_of_mem_enum hp
    have hmem2 : p.2 ∈ g := (List.perm_insertionSort keyLeP g).mem_iff.mp hmem
    have hpos : (0 : ℚ) < (1 / 10) / ((p.1 : ℚ) + 1) := by positivity
    have hble : (1 / 10 : ℚ) / ((p.1 : ℚ) + 1) ≤ 1 / 10 := by
      apply div_le_self (by norm_num)
      have hc : (0 : ℚ) ≤ (p.1 : ℚ) := Nat.cast_nonneg _
      linarith
    refine ⟨p.2, hmem2, ?_, ?_, ?_⟩
    · rw [← hfo]
    · rw [← hfo]
      show p.2.weight ≤ p.2.weight + (1 / 10) / ((p.1 : ℚ) + 1)
      linarith
    · rw [← hfo]
      show p.2.weight + (1 / 10) / ((p.1 : ℚ) + 1) ≤ p.2.weight + 1 / 10
      linarith

theorem add_tie_breaking_trace {l : List WeightedUser} {o : WeightedUser}
    (h : o ∈ add_tie_breaking_logic l) :
    ∃ wu ∈ l, o.user = wu.user ∧ wu.weight ≤ o.weight ∧ o.weight ≤ wu.weight + 1 / 10 := by
  unfold add_tie_breaking_logic at h
  obtain ⟨k, hk, ho⟩ := List.mem_flatMap.mp h
  obtain ⟨wu, hwu, hprops⟩ := tieBreakGroup_trace ho
  exact ⟨wu, (mem_weightGroup.mp hwu).1, hprops⟩

/-! ## C3 -/

/-- C3 counterexample: in `tieListCex`, userA (weight 100.2) lies in a
strictly lower rounded-weight group than userC (weight 100.21), yet after
tie-breaking userA's final weight 100.3 exceeds userC's final weight
100.21 — so a member of a lower-weight group ends up with a final weight
above a member of a higher-weight group, refuting the claimed cross-group
ordering preservation for arbitrary fractional weights. -/
theorem tie_breaking_cross_group_c3_cex :
    ({ user := userA, weight := (1002 / 10 : ℚ) } : WeightedUser) ∈ tieListCex ∧
    ({ user := userC, weight := (10021 / 100 : ℚ) } : WeightedUser) ∈ tieListCex ∧
    round2 (1002 / 10 : ℚ) < round2 (10021 / 100 : ℚ) ∧
    add_tie_breaking_logic tieListCex =
      [ { user := userA, weight := 1003 / 10 }, { user := userB, weight := 401 / 4 },
        { user := userC, weight := 10021 / 100 } ] ∧
    (10021 / 100 : ℚ) < 1003 / 10 := by
  refine ⟨?_, ?_, ?_, ?_, by norm_num⟩
  · simp [tieListCex]
  · simp [tieListCex]
  · norm_num [round2, round_eq]
  · norm_num [add_tie_breaking_logic, groupKeys, weightGroup, tieBreakGroup, round2,
      round_eq, List.insertionSort, List.orderedInsert, tieListCex, userA, userB, userC,
      List.enum, List.enumFrom, keyLeP, pyKey, date1900]

/-- C3 (amended): `add_tie_breaking_logic` groups candidates by weight
rounded to 2 decimals; a candidate whose group has size 1 passes through
unchanged; every output entry stems from an input entry of the same user
with a bonus between 0 and 0.1 added; within every group of size > 1 the
members are sorted by (last-selection date with the 1900-01-01 sentinel
for never-selected, then mail address) and member `i` of the sorted order
receives the strictly decreasing bonus `0.1 / (i + 1)`; and — amended: for
integer input weights (as produced by the weight calculator), with one
weight per person — no member of a lower-weight group ends up with a final
weight above a member of a higher-weight group.  (For arbitrary fractional
weights the cross-group preservation fails, see the counterexample.) -/
theorem tie_breaking_spec_c3 (l : List WeightedUser)
    (hZ : ∀ wu ∈ l, ∃ z : ℤ, wu.weight = (z : ℚ))
    (hU : ∀ wu ∈ l, ∀ wu2 ∈ l, wu.user = wu2.user → wu.weight = wu2.weight) :
    (∀ wu ∈ l, (weightGroup l (round2 wu.weight)).length = 1 →
        wu ∈ add_tie_breaking_logic l)
    ∧ (∀ o ∈ add_tie_breaking_logic l, ∃ wu ∈ l, o.user = wu.user ∧
        wu.weight ≤ o.weight ∧ o.weight ≤ wu.weight + 1 / 10)
    ∧ (∀ k ∈ groupKeys l, 1 < (weightGroup l k).length →
        ∃ s : List WeightedUser, s.Perm (weightGroup l k) ∧ s.Sorted keyLeP ∧
          (∀ (i : ℕ) (hi : i < s.length),
            ({ user := (s.get ⟨i, hi⟩).user,
               weight := (s.get ⟨i, hi⟩).weight + (1 / 10 : ℚ) / ((i : ℚ) + 1) } : WeightedUser)
              ∈ add_tie_breaking_logic l) ∧
          (∀ i j : ℕ, i < j → j < s.length →
            (1 / 10 : ℚ) / ((j : ℚ) + 1) < (1 / 10 : ℚ) / ((i : ℚ) + 1)))
    ∧ (∀ wu1 ∈ l, ∀ wu2 ∈ l, round2 wu1.weight < round2 wu2.weight →
        ∀ o1 ∈ add_tie_breaking_logic l, ∀ o2 ∈ add_tie_breaking_logic l,
          o1.user = wu1.user → o2.user = wu2.user → o1.weight < o2.weight) := by
  refine ⟨?_, ?_, ?_, ?_⟩
  · intro wu hmem hlen1
    have hg : wu ∈ weightGroup l (round2 wu.weight) := mem_weightGroup.mpr ⟨hmem, rfl⟩
    obtain ⟨a, ha⟩ := List.length_eq_one.mp hlen1
    have haw : a = wu := by
      rw [ha] at hg
      exact (List.mem_singleton.mp hg).symm
    have ha2 : weightGroup l (round2 wu.weight) = [wu] := by
      rw [ha, haw]
    unfold add_tie_breaking_logic
    refine List.mem_flatMap.mpr ⟨round2 wu.weight, mem_groupKeys_of_mem hmem, ?_⟩
    rw [ha2]
    simp [tieBreakGroup]
  · intro o ho
    exact add_tie_breaking_trace ho
  · intro k hk hlen
    refine ⟨List.insertionSort keyLeP (weightGroup l k), List.perm_insertionSort _ _,
      List.sorted_insertionSort _ _, ?_, ?_⟩
    · intro i hi
      unfold add_tie_breaking_logic
      refine List.mem_flatMap.mpr ⟨k, hk, ?_⟩
      unfold tieBreakGroup
      rw [if_neg (by omega : ¬ (weightGroup l k).length = 1)]
      refine List.mem_map.mpr
        ⟨(i, (List.insertionSort keyLeP (weightGroup l k)).get ⟨i, hi⟩), ?_, rfl⟩
      have hlen2 : i < (List.insertionSort keyLeP (weightGroup l k)).enum.length := by
        simpa using hi
      have hEq := List.getElem_enum (List.insertionSort keyLeP (weightGroup l k)) i hlen2
      have hmem := List.getElem_mem
        (l := (List.insertionSort keyLeP (weightGroup l k)).enum) (n := i) hlen2
      rw [hEq] at hmem
      simpa [List.get_eq_getElem] using hmem
    · intro i j hij hjlen
      have hcast : ((i : ℚ) + 1) < ((j : ℚ) + 1) := by
        have hq : (i : ℚ) < (j : ℚ) := by exact_mod_cast hij
        linarith
      exact div_lt_div_of_pos_left (by norm_num) (by positivity) hcast
  · intro wu1 h1 wu2 h2 hlt o1 ho1 o2 ho2 hu1 hu2
    obtain ⟨wa, hwa, hua, hla, hra⟩ := add_tie_breaking_trace ho1
    obtain ⟨wb, hwb, hub, hlb2, hrb⟩ := add_tie_breaking_trace ho2
    have hwa2 : wa.weight = wu1.weight := hU wa hwa wu1 h1 (by rw [← hua, hu1])
    have hwb2 : wb.weight = wu2.weight := hU wb hwb wu2 h2 (by rw [← hub, hu2])
    obtain ⟨z1, hz1⟩ := hZ wu1 h1
    obtain ⟨z2, hz2⟩ := hZ wu2 h2
    have hr1 : round2 wu1.weight = wu1.weight := by
      rw [hz1, round2_intCast]
    have hr2 : round2 wu2.weight = wu2.weight := by
      rw [hz2, round2_intCast]
    rw [hr1, hr2, hz1, hz2] at hlt
    have hz : z1 < z2 := by exact_mod_cast hlt
    have hzsucc : z1 + 1 ≤ z2 := hz
    have hzq : (z1 : ℚ) + 1 ≤ (z2 : ℚ) := by exact_mod_cast hzsucc
    rw [hwa2, hz1] at hra
    rw [hwb2, hz2] at hlb2
    linarith

/-- Witness for C3 at the integer-weight list `tieListInt` (two users tied
at weight 100, one at 101), discharging the integrality and
one-weight-per-person hypotheses. -/
theorem tie_breaking_spec_c3_witness :
    ((∀ wu ∈ tieListInt, ∃ z : ℤ, wu.weight = (z : ℚ)) ∧
      (∀ wu ∈ tieListInt, ∀ wu2 ∈ tieListInt, wu.user = wu2.user → wu.weight = wu2.weight)) ∧
    ((∀ wu ∈ tieListInt, (weightGroup tieListInt (round2 wu.weight)).length = 1 →
        wu ∈ add_tie_breaking_logic tieListInt)
      ∧ (∀ o ∈ add_tie_breaking_logic tieListInt, ∃ wu ∈ tieListInt, o.user = wu.user ∧
          wu.weight ≤ o.weight ∧ o.weight ≤ wu.weight + 1 / 10)
      ∧ (∀ k ∈ groupKeys tieListInt, 1 < (weightGroup tieListInt k).length →
          ∃ s : List WeightedUser, s.Perm (weightGroup tieListInt k) ∧ s.Sorted keyLeP ∧
            (∀ (i : ℕ) (hi : i < s.length),
              ({ user := (s.get ⟨i, hi⟩).user,
                 weight := (s.get ⟨i, hi⟩).weight + (1 / 10 : ℚ) / ((i : ℚ) + 1) } :
                  WeightedUser)
                ∈ add_tie_breaking_logic tieListInt) ∧
            (∀ i j : ℕ, i < j → j < s.length →
              (1 / 10 : ℚ) / ((j : ℚ) + 1) < (1 / 10 : ℚ) / ((i : ℚ) + 1)))
      ∧ (∀ wu1 ∈ tieListInt, ∀ wu2 ∈ tieListInt, round2 wu1.weight < round2 wu2.weight →
          ∀ o1 ∈ add_tie_breaking_logic tieListInt,
            ∀ o2 ∈ add_tie_breaking_logic tieListInt,
              o1.user = wu1.user → o2.user = wu2.user → o1.weight < o2.weight)) := by
  have hZ : ∀ wu ∈ tieListInt, ∃ z : ℤ, wu.weight = (z : ℚ) := by
    intro wu h
    simp only [tieListInt, List.mem_cons, List.not_mem_nil, or_false] at h
    rcases h with h | h | h <;> subst h
    · exact ⟨100, by norm_num⟩
    · exact ⟨100, by norm_num⟩
    · exact ⟨101, by norm_num⟩
  have hU : ∀ wu ∈ tieListInt, ∀ wu2 ∈ tieListInt,
      wu.user = wu2.user → wu.weight = wu2.weight := by
    intro wu h wu2 h2 hue
    simp only [tieListInt, List.mem_cons, List.not_mem_nil, or_false] at h h2
    rcases h with h | h | h <;> rcases h2 with h2 | h2 | h2 <;> subst h <;> subst h2 <;>
      first
        | rfl
        | exact absurd hue (by decide)
  exact ⟨⟨hZ, hU⟩, tie_breaking_spec_c3 tieListInt hZ hU⟩

/-! ## Pipeline lemmas -/

theorem alreadySelectedMail_eq_none {st : DBState} {today : Int}
    (h : ∀ r ∈ st.selection_history, r.selected_date ≠ today) :
    alreadySelectedMail st today = none := by
  unfold alreadySelectedMail
  have hnil : st.selection_history.filterMap (fun sh =>
      if sh.selected_date = today then
        (st.users.find? (fun u => decide (u.id = sh.user_id))).map (fun u => u.mail)
      else none) = [] := by
    rw [List.filterMap_eq_nil_iff]
    intro r hr
    rw [if_neg (h r hr)]
  rw [hnil]
  rfl

theorem eq_of_id_eq_head {x u : User} {rest : List User}
    (hmem : u ∈ x :: rest) (hx : x.id = u.id)
    (hnotin : x.id ∉ rest.map (fun y => y.id)) : x = u := by
  rcases List.mem_cons.mp hmem with h1 | h2
  · exact h1.symm
  · exfalso
    apply hnotin
    rw [hx]
    exact List.mem_map.mpr ⟨u, h2, rfl⟩

theorem find?_id_nodup : ∀ (users : List User) (u : User), u ∈ users →
    (users.map (fun x => x.id)).Nodup →
    users.find? (fun x => decide (x.id = u.id)) = some u := by
  intro users
  induction users with
  | nil =>
    intro u h
    cases h
  | cons x rest ih =>
    intro u hmem hnd
    rw [List.map_cons, List.nodup_cons] at hnd
    by_cases hx : x.id = u.id
    · rw [List.find?_cons_of_pos _ (by simp [hx])]
      rw [eq_of_id_eq_head hmem hx hnd.1]
    · rw [List.find?_cons_of_neg _ (by simp [hx])]
      apply ih u ?_ hnd.2
      rcases List.mem_cons.mp hmem with h1 | h2
      · exact absurd (by rw [h1]) hx
      · exact h2

theorem find?_update_nodup : ∀ (users : List User) (u : User) (d : Int), u ∈ users →
    (users.map (fun x => x.id)).Nodup →
    (users.map (fun x => if x.id = u.id then { x with last_chosen := some d } else x)).find?
        (fun x => decide (x.id = u.id)) =
      some { u with last_chosen := some d } := by
  intro users
  induction users with
  | nil =>
    intro u d h
    cases h
  | cons x rest ih =>
    intro u d hmem hnd
    rw [List.map_cons, List.nodup_cons] at hnd
    rw [List.map_cons]
    by_cases hx : x.id = u.id
    · rw [if_pos hx]
      rw [List.find?_cons_of_pos _ (by simp [hx])]
      rw [eq_of_id_eq_head hmem hx hnd.1]
    · rw [if_neg hx]
      rw [List.find?_cons_of_neg _ (by simp [hx])]
      apply ih u d ?_ hnd.2
      rcases List.mem_cons.mp hmem with h1 | h2
      · exact absurd (by rw [h1]) hx
      · exact h2

theorem alreadySelectedMail_of_single (st : DBState) (today : Int)
    (oldF : List SelectionRecord) (uid : Int) (v : User)
    (hhist : st.selection_history = oldF ++ [{ user_id := uid, selected_date := today }])
    (hold : ∀ r ∈ oldF, r.selected_date ≠ today)
    (hfind : st.users.find? (fun x => decide (x.id = uid)) = some v) :
    alreadySelectedMail st today = some v.mail := by
  unfold alreadySelectedMail
  rw [hhist, List.filterMap_append]
  have h1 : oldF.filterMap (fun sh =>
      if sh.selected_date = today then
        (st.users.find? (fun u => decide (u.id = sh.user_id))).map (fun u => u.mail)
      else none) = [] := by
    rw [List.filterMap_eq_nil_iff]
    intro r hr
    rw [if_neg (hold r hr)]
  rw [h1]
  simp [List.filterMap_cons, hfind]

theorem add_tie_breaking_ne_nil {l : List WeightedUser} (h : l ≠ []) :
    add_tie_breaking_logic l ≠ [] := by
  match l, h with
  | wu :: rest, _ =>
    have hk : round2 wu.weight ∈ groupKeys (wu :: rest) :=
      mem_groupKeys_of_mem (List.mem_cons_self _ _)
    have hg : wu ∈ weightGroup (wu :: rest) (round2 wu.weight) :=
      mem_weightGroup.mpr ⟨List.mem_cons_self _ _, rfl⟩
    have hgne : weightGroup (wu :: rest) (round2 wu.weight) ≠ [] := List.ne_nil_of_mem hg
    have htne : tieBreakGroup (weightGroup (wu :: rest) (round2 wu.weight)) ≠ [] := by
      unfold tieBreakGroup
      by_cases hlen : (weightGroup (wu :: rest) (round2 wu.weight)).length = 1
      · rw [if_pos hlen]
        exact hgne
      · rw [if_neg hlen]
        intro hmap
        rw [List.map_eq_nil_iff] at hmap
        have hsortnil : List.insertionSort keyLeP (weightGroup (wu :: rest)
            (round2 wu.weight)) = [] := by
          cases hs : List.insertionSort keyLeP (weightGroup (wu :: rest) (round2 wu.weight)) with
          | nil => rfl
          | cons a b =>
            rw [hs] at hmap
            simp [List.enum, List.enumFrom] at hmap
        have hperm := List.perm_insertionSort keyLeP
          (weightGroup (wu :: rest) (round2 wu.weight))
        rw [hsortnil] at hperm
        have hlen0 := hperm.length_eq
        simp only [List.length_nil] at hlen0
        exact hgne (List.length_eq_zero.mp hlen0.symm)
    obtain ⟨o, ho⟩ := List.exists_mem_of_ne_nil _ htne
    have hmemo : o ∈ add_tie_breaking_logic (wu :: rest) := by
      unfold add_tie_breaking_logic
      exact List.mem_flatMap.mpr ⟨_, hk, ho⟩
    exact List.ne_nil_of_mem hmemo

theorem selection_returns_member (l : List WeightedUser) (rand_val : ℚ) (choice_idx : Nat)
    (hne : l ≠ []) :
    ∃ wu ∈ l, weighted_random_selection_improved l rand_val choice_idx =
      Except.ok wu.user := by
  match l, hne with
  | wu :: rest, _ =>
    simp only [weighted_random_selection_improved]
    by_cases hlen : rest.length = 0
    · rw [if_pos hlen]
      exact ⟨wu, List.mem_cons_self _ _, rfl⟩
    · rw [if_neg hlen]
      by_cases htot : ((wu :: rest).map (fun x => x.weight)).sum ≤ 0
      · rw [if_pos htot]
        exact ⟨(wu :: rest).get ⟨choice_idx % (rest.length + 1), Nat.mod_lt _ (Nat.succ_pos _)⟩,
          List.get_mem _ _ _, rfl⟩
      · rw [if_neg htot]
        cases hscan : scanSelect rand_val 0 (wu :: rest) with
        | some u =>
          obtain ⟨wu2, hmem, hequ⟩ := scanSelect_mem rand_val (wu :: rest) 0 u hscan
          exact ⟨wu2, hmem, by rw [hequ]⟩
        | none =>
          exact ⟨(wu :: rest).getLast (List.cons_ne_nil _ _), List.getLast_mem _, rfl⟩

theorem pipeline_selected_mem (st : DBState) (today : Int) (weekday : Char)
    (isWeekendDay isHolidayDay : Int → Bool) (rand_val : ℚ) (choice_idx : Nat) (u : User)
    (hne : available_users st today weekday ≠ [])
    (hsel : weighted_random_selection_improved
        (List.insertionSort weightDescP
          (add_tie_breaking_logic (weighted_users_of st today weekday isWeekendDay isHolidayDay)))
        rand_val choice_idx = Except.ok u) :
    u ∈ available_users st today weekday := by
  have hmne : weighted_users_of st today weekday isWeekendDay isHolidayDay ≠ [] := by
    unfold weighted_users_of
    simpa [List.map_eq_nil_iff] using hne
  have htie := add_tie_breaking_ne_nil hmne
  have hsne : List.insertionSort weightDescP
      (add_tie_breaking_logic (weighted_users_of st today weekday isWeekendDay isHolidayDay))
        ≠ [] := by
    intro h0
    have hperm := List.perm_insertionSort weightDescP
      (add_tie_breaking_logic (weighted_users_of st today weekday isWeekendDay isHolidayDay))
    rw [h0] at hperm
    have hlen0 := hperm.length_eq
    simp only [List.length_nil] at hlen0
    exact htie (List.length_eq_zero.mp hlen0.symm)
  obtain ⟨wu, hwmem, hwres⟩ := selection_returns_member _ rand_val choice_idx hsne
  rw [hsel] at hwres
  have hu : u = wu.user := by
    injection hwres
  have hwtied : wu ∈ add_tie_breaking_logic
      (weighted_users_of st today weekday isWeekendDay isHolidayDay) :=
    (List.perm_insertionSort _ _).mem_iff.mp hwmem
  obtain ⟨v, hvmem, hvu, _, _⟩ := add_tie_breaking_trace hwtied
  rw [weighted_users_of] at hvmem
  obtain ⟨a, hamem, hav⟩ := List.mem_map.mp hvmem
  rw [hu, hvu, ← hav]
  exact hamem

theorem find_next_ok_shape (st : DBState) (today : Int) (weekday : Char)
    (wk hol : Int → Bool) (rand_val : ℚ) (choice_idx : Nat) (cu : Bool) :
    (∃ mail, alreadySelectedMail st today = some mail ∧
      find_next_catcher_weighted st today weekday wk hol rand_val choice_idx cu false
        FailPoint.ok = ((some mail, false), st))
    ∨ (available_users st today weekday = [] ∧
      find_next_catcher_weighted st today weekday wk hol rand_val choice_idx cu false
        FailPoint.ok = ((none, false), st))
    ∨ (∃ u ∈ available_users st today weekday,
      find_next_catcher_weighted st today weekday wk hol rand_val choice_idx cu false
        FailPoint.ok = ((some u.mail, true),
          if cu then
            cleanup_old_selection_history (recordSelection st u.id today) today
              CLEANUP_RETENTION_DAYS
          else recordSelection st u.id today)) := by
  rcases h1 : alreadySelectedMail st today with _ | mail
  case some =>
    left
    exact ⟨mail, rfl, by simp [find_next_catcher_weighted, h1]⟩
  case none =>
    by_cases hA : (available_users st today weekday).length = 0
    · right
      left
      exact ⟨List.length_eq_zero.mp hA, by simp [find_next_catcher_weighted, h1, hA]⟩
    · right
      right
      have hne : available_users st today weekday ≠ [] := by
        intro h0
        exact hA (by rw [h0]; rfl)
      rcases h2 : weighted_random_selection_improved
          (List.insertionSort weightDescP
            (add_tie_breaking_logic (weighted_users_of st today weekday wk hol)))
          rand_val choice_idx with e | selected
      · exfalso
        have hmne : weighted_users_of st today weekday wk hol ≠ [] := by
          unfold weighted_users_of
          simpa [List.map_eq_nil_iff] using hne
        have htie := add_tie_breaking_ne_nil hmne
        have hsne : List.insertionSort weightDescP
            (add_tie_breaking_logic (weighted_users_of st today weekday wk hol)) ≠ [] := by
          intro h0
          have hperm := List.perm_insertionSort weightDescP
            (add_tie_breaking_logic (weighted_users_of st today weekday wk hol))
          rw [h0] at hperm
          have hlen0 := hperm.length_eq
          simp only [List.length_nil] at hlen0
          exact htie (List.length_eq_zero.mp hlen0.symm)
        obtain ⟨wu, _, hres⟩ := selection_returns_member _ rand_val choice_idx hsne
        rw [h2] at hres
        cases hres
      · refine ⟨selected, pipeline_selected_mem st today weekday wk hol rand_val choice_idx
          selected hne h2, ?_⟩
        simp only [find_next_catcher_weighted, h1, hA, h2]
        cases cu <;> simp

theorem alreadySelectedMail_of_unique (st : DBState) (today : Int)
    (r : SelectionRecord) (v : User)
    (hr : r ∈ st.selection_history) (hdate : r.selected_date = today)
    (huniq : ∀ r2 ∈ st.selection_history, r2.selected_date = today → r2 = r)
    (hfind : st.users.find? (fun x => decide (x.id = r.user_id)) = some v) :
    alreadySelectedMail st today = some v.mail := by
  unfold alreadySelectedMail
  suffices h : ∀ hist : List SelectionRecord,
      (∀ r2 ∈ hist, r2.selected_date = today → r2 = r) → r ∈ hist →
      (hist.filterMap (fun sh =>
        if sh.selected_date = today then
          (st.users.find? (fun x => decide (x.id = sh.user_id))).map (fun x => x.mail)
        else none)).head? = some v.mail by
    exact h st.selection_history huniq hr
  intro hist
  induction hist with
  | nil =>
    intro _ habs
    cases habs
  | cons x t ih =>
    intro huniq2 hmem2
    rw [List.filterMap_cons]
    by_cases hx : x.selected_date = today
    · have hxr : x = r := huniq2 x (List.mem_cons_self _ _) hx
      rw [if_pos hx, hxr, hfind]
      rfl
    · rw [if_neg hx]
      apply ih
      · intro r2 h2 hd2
        exact huniq2 r2 (List.mem_cons_of_mem _ h2) hd2
      · rcases List.mem_cons.mp hmem2 with hh | hh
        · exact absurd (by rw [← hh] at hx; exact hx) (by intro h3; exact h3 hdate)
        · exact hh

/-! ## C5 -/

/-- C5: if a SelectionRecord already exists for today, the run returns that
record's person with `is_new_selection = false` and leaves the database
untouched; and a run that makes a new selection leaves exactly one record
dated today, so invoking the run again on the same date returns the same
person, again without inserting anything. -/
theorem idempotent_selection_c5 :
    (∀ (st : DBState) (today : Int) (weekday : Char) (wk hol : Int → Bool)
        (rand_val : ℚ) (choice_idx : Nat) (cu dr : Bool)
        (r : SelectionRecord) (u : User),
      r ∈ st.selection_history → r.selected_date = today →
      (∀ r2 ∈ st.selection_history, r2.selected_date = today → r2 = r) →
      u ∈ st.users → u.id = r.user_id →
      (st.users.map (fun x => x.id)).Nodup →
      find_next_catcher_weighted st today weekday wk hol rand_val choice_idx cu dr
        FailPoint.ok = ((some u.mail, false), st))
    ∧ (∀ (st : DBState) (today : Int) (weekday : Char) (wk hol : Int → Bool)
        (rand_val : ℚ) (choice_idx : Nat) (cu : Bool) (m : String) (st1 : DBState),
      (∀ r ∈ st.selection_history, r.selected_date ≠ today) →
      (st.users.map (fun x => x.id)).Nodup →
      find_next_catcher_weighted st today weekday wk hol rand_val choice_idx cu false
        FailPoint.ok = ((some m, true), st1) →
      (st1.selection_history.filter (fun r => decide (r.selected_date = today))).length = 1 ∧
        ∀ (rand2 : ℚ) (choice2 : Nat) (cu2 dr2 : Bool),
          find_next_catcher_weighted st1 today weekday wk hol rand2 choice2 cu2 dr2
            FailPoint.ok = ((some m, false), st1)) := by
  constructor
  · intro st today weekday wk hol rand_val choice_idx cu dr r u hr hdate huniq hu hid hnd
    have hfunext : (fun x : User => decide (x.id = r.user_id)) =
        (fun x : User => decide (x.id = u.id)) := by
      funext x
      rw [hid]
    have hfind : st.users.find? (fun x => decide (x.id = r.user_id)) = some u := by
      rw [hfunext]
      exact find?_id_nodup st.users u hu hnd
    have halready := alreadySelectedMail_of_unique st today r u hr hdate huniq hfind
    simp [find_next_catcher_weighted, halready]
  · intro st today weekday wk hol rand_val choice_idx cu m st1 hnone hnd hrun
    rcases find_next_ok_shape st today weekday wk hol rand_val choice_idx cu with
      ⟨mail, hmail, heq⟩ | ⟨hempty, heq⟩ | ⟨u, humem, heq⟩
    · rw [heq] at hrun
      simp at hrun
    · rw [heq] at hrun
      simp at hrun
    · rw [heq] at hrun
      have hm2 : u.mail = m := by
        have hm : some u.mail = some m := congrArg (fun p => p.1.1) hrun
        injection hm
    -- continues below
      have hst1 : st1 = (if cu then
          cleanup_old_selection_history (recordSelection st u.id today) today
            CLEANUP_RETENTION_DAYS
        else recordSelection st u.id today) := (congrArg Prod.snd hrun).symm
      have huu : u ∈ st.users := by
        simp only [available_users] at humem
        exact List.mem_of_mem_filter (List.mem_of_mem_filter humem)
      have hkeep : (! decide (((⟨u.id, today⟩ : SelectionRecord)).selected_date <
          today - ((CLEANUP_RETENTION_DAYS : Nat) : Int))) = true := by
        simp [CLEANUP_RETENTION_DAYS]
      obtain ⟨oldF, hh, holdF⟩ : ∃ oldF : List SelectionRecord,
          st1.selection_history = oldF ++ [{ user_id := u.id, selected_date := today }] ∧
          ∀ r2 ∈ oldF, r2.selected_date ≠ today := by
        cases cu with
        | false =>
          refine ⟨st.selection_history, ?_, hnone⟩
          rw [hst1]
          rfl
        | true =>
          refine ⟨st.selection_history.filter (fun r2 =>
            ! decide (r2.selected_date < today - ((CLEANUP_RETENTION_DAYS : Nat) : Int))), ?_, ?_⟩
          · rw [hst1]
            simp only [if_true, cleanup_old_selection_history, recordSelection,
              List.filter_append]
            congr 1
            rw [List.filter_cons]
            rw [if_pos hkeep]
            rfl
          · intro r2 h2
            exact hnone r2 (List.mem_of_mem_filter h2)
      have husers : st1.users = st.users.map (fun x =>
          if x.id = u.id then { x with last_chosen := some today } else x) := by
        cases cu with
        | false =>
          rw [hst1]
          rfl
        | true =>
          rw [hst1]
          rfl
      have hcount : (st1.selection_history.filter
          (fun r2 => decide (r2.selected_date = today))).length = 1 := by
        rw [hh, List.filter_append]
        have hnilf : oldF.filter (fun r2 => decide (r2.selected_date = today)) = [] := by
          rw [List.filter_eq_nil_iff]
          intro a ha
          simp [holdF a ha]
        rw [hnilf]
        simp
      have hfind2 : st1.users.find? (fun x => decide (x.id = u.id)) =
          some { u with last_chosen := some today } := by
        rw [husers]
        exact find?_update_nodup st.users u today huu hnd
      have halready2 : alreadySelectedMail st1 today = some u.mail :=
        alreadySelectedMail_of_single st1 today oldF u.id
          { u with last_chosen := some today } hh holdF hfind2
      refine ⟨hcount, ?_⟩
      intro rand2 choice2 cu2 dr2
      rw [← hm2]
      simp [find_next_catcher_weighted, halready2]

/-- Witness for C5: a one-user database, day 0.  The first run selects the
user and inserts the day-0 record; the repeated run returns the same mail
with `is_new_selection = false` and leaves the state unchanged, and the
already-selected early return is exercised directly as well. -/
theorem idempotent_selection_c5_witness :
    ((∀ r ∈ runState.selection_history, r.selected_date ≠ 0) ∧
      (runState.users.map (fun x => x.id)).Nodup ∧
      find_next_catcher_weighted runState 0 '1' (fun _ => false) (fun _ => false) 0 0
        false false FailPoint.ok = ((some ("a@x"), true), runStateAfter)) ∧
    ((runStateAfter.selection_history.filter
        (fun r => decide (r.selected_date = 0))).length = 1 ∧
      ∀ (rand2 : ℚ) (choice2 : Nat) (cu2 dr2 : Bool),
        find_next_catcher_weighted runStateAfter 0 '1' (fun _ => false) (fun _ => false)
          rand2 choice2 cu2 dr2 FailPoint.ok = ((some ("a@x"), false), runStateAfter)) ∧
    find_next_catcher_weighted runStateAfter 0 '1' (fun _ => false) (fun _ => false)
      (1 / 2) 3 true true FailPoint.ok = ((some ("a@x"), false), runStateAfter) := by
  have hnone : ∀ r ∈ runState.selection_history, r.selected_date ≠ 0 := by
    simp [runState]
  have hnd : (runState.users.map (fun x => x.id)).Nodup := by
    simp [runState, userA]
  have hrun : find_next_catcher_weighted runState 0 '1' (fun _ => false) (fun _ => false)
      0 0 false false FailPoint.ok = ((some ("a@x"), true), runStateAfter) := by
    norm_num [find_next_catcher_weighted, alreadySelectedMail, available_users,
      weighted_users_of, recordSelection, is_user_on_vacation, get_last_working_day_catcher,
      lastCatcherSearch, has_alternatives, get_recent_selection_count, calculate_user_weight,
      add_tie_breaking_logic, groupKeys, weightGroup, tieBreakGroup, round2,
      weighted_random_selection_improved, scanSelect, cleanup_old_selection_history,
      runState, runStateAfter, userA, BASE_WEIGHT, YESTERDAY_PENALTY,
      FREQUENCY_PENALTY_MULTIPLIER, LOOKBACK_DAYS, CLEANUP_RETENTION_DAYS,
      List.insertionSort, List.orderedInsert, keyLeP, pyKey, date1900, round_eq]
    rfl
  refine ⟨⟨hnone, hnd, hrun⟩,
    idempotent_selection_c5.2 runState 0 '1' (fun _ => false) (fun _ => false) 0 0 false
      ("a@x") runStateAfter hnone hnd hrun, ?_⟩
  exact idempotent_selection_c5.1 runStateAfter 0 '1' (fun _ => false) (fun _ => false)
    (1 / 2) 3 true true { user_id := 1, selected_date := 0 }
    { id := 1, mail := "a@x", last_chosen := some 0, weekdays := "12345" }
    (by simp [runStateAfter]) rfl (by simp [runStateAfter]) (by simp [runStateAfter])
    rfl (by simp [runStateAfter])

/-! ## C6 -/

/-- C6: `has_alternatives` is true iff there is more than one eligible
candidate, or exactly one whose id differs from the last working day's
catcher; with `has_alternatives = false` the yesterday-penalty is not
subtracted (the weight equals the weight computed with no last-catcher at
all); and when the sole eligible candidate is the last working day's
catcher, the run selects that candidate for every random draw. -/
theorem single_candidate_c6 :
    (∀ (avail : List User) (lastc : Option Int),
      has_alternatives avail lastc = true ↔
        (1 < avail.length ∨ ∃ c, avail = [c] ∧ lastc ≠ some c.id))
    ∧ (∀ (uid : Int) (lc : Option Int) (today : Int) (lastc : Option Int)
        (recent : Nat),
      calculate_user_weight uid lc today lastc recent false =
        calculate_user_weight uid lc today none recent false)
    ∧ (∀ (st : DBState) (today : Int) (weekday : Char) (wk hol : Int → Bool)
        (cu : Bool) (c : User) (rand_val : ℚ) (choice_idx : Nat),
      (∀ r ∈ st.selection_history, r.selected_date ≠ today) →
      available_users st today weekday = [c] →
      get_last_working_day_catcher st today wk hol = some c.id →
      (find_next_catcher_weighted st today weekday wk hol rand_val choice_idx cu false
        FailPoint.ok).1 = (some c.mail, true)) := by
  refine ⟨?_, ?_, ?_⟩
  · intro avail lastc
    match avail with
    | [] => simp [has_alternatives]
    | [a] =>
      cases lastc with
      | none => simp [has_alternatives]
      | some j =>
        simp only [has_alternatives, List.length_singleton, Bool.or_eq_true,
          Bool.and_eq_true, decide_eq_true_eq]
        constructor
        · intro h
          rcases h with h1 | ⟨_, h2⟩
          · exact absurd h1 (by omega)
          · exact Or.inr ⟨a, rfl, fun hc => h2 (Option.some.inj hc).symm⟩
        · intro h
          rcases h with h1 | ⟨c, hc, hne⟩
          · exact absurd h1 (by omega)
          · have hca : a = c := by
              injection hc with h4 _
            subst hca
            exact Or.inr ⟨trivial, fun he => hne (congrArg some he.symm)⟩
    | a :: b :: t =>
      have hlen : 1 < (a :: b :: t).length := by
        simp only [List.length_cons]
        omega
      simp only [has_alternatives]
      constructor
      · intro _
        exact Or.inl hlen
      · intro _
        simp [decide_eq_true_eq, hlen]
  · intro uid lc today lastc recent
    rfl
  · intro st today weekday wk hol cu c rand_val choice_idx hnone hava hlast
    rcases find_next_ok_shape st today weekday wk hol rand_val choice_idx cu with
      ⟨mail, hmail, heq⟩ | ⟨hempty, heq⟩ | ⟨u, humem, heq⟩
    · rw [alreadySelectedMail_eq_none hnone] at hmail
      cases hmail
    · rw [hava] at hempty
      cases hempty
    · rw [hava] at humem
      have huc : u = c := List.mem_singleton.mp humem
      rw [heq, huc]

/-- Witness for C6: a single eligible user who was also selected on day -1
(the last working day before day 0) is selected deterministically. -/
theorem single_candidate_c6_witness :
    ((∀ r ∈ yestState.selection_history, r.selected_date ≠ 0) ∧
      available_users yestState 0 '1' = [userA] ∧
      get_last_working_day_catcher yestState 0 (fun _ => false) (fun _ => false) =
        some userA.id) ∧
    (find_next_catcher_weighted yestState 0 '1' (fun _ => false) (fun _ => false) (1 / 2) 0
      false false FailPoint.ok).1 = (some userA.mail, true) ∧
    (has_alternatives [userA] (some userA.id) = true ↔
      (1 < ([userA] : List User).length ∨
        ∃ c, [userA] = [c] ∧ some userA.id ≠ some c.id)) := by
  have h1 : ∀ r ∈ yestState.selection_history, r.selected_date ≠ 0 := by
    simp [yestState]
  have h2 : available_users yestState 0 '1' = [userA] := by
    decide
  have h3 : get_last_working_day_catcher yestState 0 (fun _ => false) (fun _ => false) =
      some userA.id := by
    decide
  exact ⟨⟨h1, h2, h3⟩,
    single_candidate_c6.2.2 yestState 0 '1' (fun _ => false) (fun _ => false) false userA
      (1 / 2) 0 h1 h2 h3,
    single_candidate_c6.1 [userA] (some userA.id)⟩

/-! ## C7 -/

/-- C7: a modelled `sqlite3.Error` anywhere in the record/read phase makes
the run fatal: the enclosing transaction rolls back, the database state is
exactly the input state (never a half-written SelectionRecord — the insert
and the last-chosen update take effect together or not at all), and no new
selection is reported.  On the error-free path the state either stays
unchanged (early returns) or receives the insert and the update together
via `recordSelection`. -/
theorem record_phase_atomic_c7 :
    (∀ (st : DBState) (today : Int) (weekday : Char) (wk hol : Int → Bool)
        (rand_val : ℚ) (choice_idx : Nat) (cu : Bool) (fp : FailPoint),
      fp ≠ FailPoint.ok →
      (find_next_catcher_weighted st today weekday wk hol rand_val choice_idx cu false
        fp).2 = st ∧
      (find_next_catcher_weighted st today weekday wk hol rand_val choice_idx cu false
        fp).1.2 = false)
    ∧ (∀ (st : DBState) (today : Int) (weekday : Char) (wk hol : Int → Bool)
        (rand_val : ℚ) (choice_idx : Nat),
      (find_next_catcher_weighted st today weekday wk hol rand_val choice_idx false false
        FailPoint.ok).2 = st ∨
      ∃ u : User, u ∈ st.users ∧
        (find_next_catcher_weighted st today weekday wk hol rand_val choice_idx false false
          FailPoint.ok).2 = recordSelection st u.id today ∧
        (find_next_catcher_weighted st today weekday wk hol rand_val choice_idx false false
          FailPoint.ok).1 = (some u.mail, true)) := by
  constructor
  · intro st today weekday wk hol rand_val choice_idx cu fp hfp
    by_cases hr : fp = FailPoint.onRead
    · subst hr
      constructor <;> simp [find_next_catcher_weighted]
    · rcases h1 : alreadySelectedMail st today with _ | mail
      · by_cases hA : (available_users st today weekday).length = 0
        · constructor <;> simp [find_next_catcher_weighted, h1, hA, hr]
        · rcases h2 : weighted_random_selection_improved
              (List.insertionSort weightDescP
                (add_tie_breaking_logic (weighted_users_of st today weekday wk hol)))
              rand_val choice_idx with e | selected
          · constructor <;> simp [find_next_catcher_weighted, h1, hA, hr, h2]
          · have hcase : fp = FailPoint.onInsert ∨ fp = FailPoint.onUpdate ∨
                fp = FailPoint.onCommit := by
              cases fp <;> simp_all
            rcases hcase with h | h | h <;> subst h <;> constructor <;>
              simp [find_next_catcher_weighted, h1, hA, h2]
      · constructor <;> simp [find_next_catcher_weighted, h1, hr]
  · intro st today weekday wk hol rand_val choice_idx
    rcases find_next_ok_shape st today weekday wk hol rand_val choice_idx false with
      ⟨mail, _, heq⟩ | ⟨_, heq⟩ | ⟨u, humem, heq⟩
    · left
      rw [heq]
    · left
      rw [heq]
    · right
      refine ⟨u, ?_, ?_, ?_⟩
      · simp only [available_users] at humem
        exact List.mem_of_mem_filter (List.mem_of_mem_filter humem)
      · rw [heq]
        simp
      · rw [heq]

/-- Witness for C7: an update-phase failure on the one-user database rolls
everything back and reports no selection. -/
theorem record_phase_atomic_c7_witness :
    FailPoint.onUpdate ≠ FailPoint.ok ∧
    ((find_next_catcher_weighted runState 0 '1' (fun _ => false) (fun _ => false) 0 0
        false false FailPoint.onUpdate).2 = runState ∧
      (find_next_catcher_weighted runState 0 '1' (fun _ => false) (fun _ => false) 0 0
        false false FailPoint.onUpdate).1.2 = false) :=
  ⟨by decide, record_phase_atomic_c7.1 runState 0 '1' (fun _ => false) (fun _ => false)
    0 0 false FailPoint.onUpdate (by decide)⟩
